import Mathlib

/-!
Verification of the calipertron sampling-to-USB streaming pipeline
(src/embassy/src/bin/usb_custom.rs).

The development embeds, as executable Lean definitions:
* the calibration closure `convert_to_millivolts` (u16 input, u32
  arithmetic, u16 narrowing cast);
* the packet assembly step of `fut_main` (in-place conversion of a batch
  of raw samples followed by a little-endian byte cast, as done by
  `bytemuck::cast_slice` on the Cortex-M target);
* the connection/streaming/drain loop of `fut_main` as an oracle-driven
  executor producing a trace of events;
* the DMA ring buffer interface (`read_exact`, `stop`, `clear`) of
  `embassy_stm32::dma::ReadableRingBuffer`, which is an external
  dependency of the repository and is modelled from the specification.
-/

namespace Calipertron

/-- The internal reference voltage constant, in millivolts:
`embassy_stm32::adc::VREF_INT` in usb_custom.rs, and the literal
`VREFINT_MV = 1200` in usb_serial.rs. -/
def VREF_INT : Nat := 1200

/-- `MAX_PACKET_SIZE` from usb_custom.rs line 26. -/
def MAX_PACKET_SIZE : Nat := 64

/-- `SAMPLES_PER_PACKET = MAX_PACKET_SIZE / 2` from usb_custom.rs line 27. -/
def SAMPLES_PER_PACKET : Nat := MAX_PACKET_SIZE / 2

/-- The calibration closure of usb_custom.rs line 151:
`|sample| (sample as u32 * adc::VREF_INT / vrefint_sample) as u16`.
The argument `sample` is a `u16` at every call site (so `sample < 2^16`
and the `u32` product `sample * 1200 < 2^32` never overflows); the
final `% 65536` is the narrowing `as u16` cast. -/
def convert_to_millivolts (sample vrefint_sample : Nat) : Nat :=
  (sample * VREF_INT / vrefint_sample) % 65536

/-- Little-endian serialization of a list of 16-bit values, one value to
two bytes: the effect of `bytemuck::cast_slice::<u16, u8>` on the
little-endian ARM target in usb_custom.rs line 202. -/
def toBytesLE : List Nat → List Nat
  | [] => []
  | x :: xs => x % 256 :: x / 256 % 256 :: toBytesLE xs

/-- Inverse of `toBytesLE`: group a byte list into little-endian 16-bit
values. Used only to state which samples a wire packet carries. -/
def bytesToSamples : List Nat → List Nat
  | b0 :: b1 :: rest => (b0 + 256 * b1) :: bytesToSamples rest
  | _ => []

/-- The packet assembled by one iteration of the streaming loop of
`fut_main` (usb_custom.rs lines 197-202): every raw sample of the batch
is converted in place by `convert_to_millivolts`, then the whole sample
buffer is cast to bytes and handed to `write_packet`. -/
def mkPacket (vrefint_sample : Nat) (batch : List Nat) : List Nat :=
  toBytesLE (batch.map (fun s => convert_to_millivolts s vrefint_sample))

/-- The two variants of `embassy_usb::driver::EndpointError`. -/
inductive WriteError
  | bufferOverflow
  | disabled
deriving DecidableEq

/-- Modelled from the spec: the result of the transport `write_packet`
(`EndpointIn::write` of embassy-usb, not part of this repository).
Section 4.3 of the spec: it fails with `BufferOverflow` if the caller
supplies more bytes than the endpoint maximum packet size, and with
`Disabled` if the host has disconnected; otherwise it succeeds. The
host-side connection state is an oracle input `hostUp`. -/
def write_packet_result (maxPacket : Nat) (bytes : List Nat) (hostUp : Bool) :
    Option WriteError :=
  if maxPacket < bytes.length then some WriteError.bufferOverflow
  else if hostUp then none else some WriteError.disabled

/-- Oracle input for one iteration of the streaming loop: either
`read_exact` resolves with a batch of raw samples (and `hostUp` tells
whether the host is still connected when `write_packet` runs), or
`read_exact` fails with `OverrunError`. -/
inductive InnerOutcome
  | read (batch : List Nat) (hostUp : Bool)
  | overrun
deriving DecidableEq

/-- Observable events of the pipeline coordinator `fut_main`. -/
inductive Event
  | waitConnection
  | start
  | readBatch (batch : List Nat)
  | readErr
  | writeCall (bytes : List Nat)
  | writeErr (e : WriteError)
  | stop
  | clear
deriving DecidableEq

/-- One connection epoch of `fut_main` (usb_custom.rs lines 189-208):
repeatedly `read_exact` into the sample buffer, break on error,
otherwise convert every sample in place, `write_packet` the byte cast of
the buffer, break on write error. Returns the events of the epoch and
whether the inner loop exited via `break` (as opposed to the oracle
being exhausted, which represents a cut of a still-running stream). -/
def runEpoch (maxPacket vrefint_sample : Nat) :
    List InnerOutcome → List Event × Bool
  | [] => ([], false)
  | InnerOutcome.overrun :: _ => ([Event.readErr], true)
  | InnerOutcome.read b hostUp :: more =>
    match write_packet_result maxPacket (mkPacket vrefint_sample b) hostUp with
    | none =>
      (Event.readBatch b :: Event.writeCall (mkPacket vrefint_sample b) ::
        (runEpoch maxPacket vrefint_sample more).1,
       (runEpoch maxPacket vrefint_sample more).2)
    | some e =>
      ([Event.readBatch b, Event.writeCall (mkPacket vrefint_sample b),
        Event.writeErr e], true)

/-- The outer loop of `fut_main` (usb_custom.rs lines 178-213):
`wait_connection`, `adc_rb.start()`, the streaming epoch, and on a
streaming failure `adc_rb.stop().await` then `adc_rb.clear()` before
looping back to `wait_connection`. -/
def runCoordinator (maxPacket vrefint_sample : Nat) :
    List (List InnerOutcome) → List Event
  | [] => []
  | cur :: rest =>
    Event.waitConnection :: Event.start ::
      ((runEpoch maxPacket vrefint_sample cur).1 ++
        (if (runEpoch maxPacket vrefint_sample cur).2 then
          Event.stop :: Event.clear ::
            runCoordinator maxPacket vrefint_sample rest
        else []))

/-- The interface contract of `read_exact` (spec section 4.1) for one
oracle entry: every successful read fills the whole fixed-size sample
buffer, so every batch the oracle supplies has exactly `spp` samples. -/
def wfOutcome (spp : Nat) : InnerOutcome → Bool
  | InnerOutcome.read b _ => b.length == spp
  | InnerOutcome.overrun => true

/-- All batches the oracle supplies have exactly `spp` samples. -/
def wfOracle (spp : Nat) (oracle : List (List InnerOutcome)) : Bool :=
  oracle.all (fun ep => ep.all (wfOutcome spp))

/-- The events on which the streaming loop breaks. -/
def isErrEvent : Event → Bool
  | Event.readErr => true
  | Event.writeErr _ => true
  | _ => false

/-- The window of `n` consecutive samples of the production stream
`prod` starting at production index `base`. -/
def window (prod : Nat → Nat) (base n : Nat) : List Nat :=
  (List.range n).map (fun i => prod (base + i))

/-- Cursor state of the DMA circular buffer, counted in absolute
production indices: `readCursor` samples consumed by software,
`written` samples produced by the hardware mover. -/
structure RB where
  readCursor : Nat
  written : Nat
deriving DecidableEq

/-- The hardware write cursor at the moment a `read_exact n` call
resolves, given that `d` samples were produced while it was pending:
the call suspends until at least `n` samples past the read cursor
exist. -/
def wAfter (n : Nat) (rb : RB) (d : Nat) : Nat :=
  max (rb.written + d) (rb.readCursor + n)

/-- Modelled from the spec: `read_exact` of
`embassy_stm32::dma::ReadableRingBuffer` (not part of this repository).
Spec section 4.1: it suspends until exactly `n` contiguous new samples
are available, then returns them in production order; it fails with
`OverrunError` if the hardware write cursor has wrapped past unread
data, i.e. ran more than `capacity` ahead of the read cursor. -/
def read_exact (capacity n : Nat) (prod : Nat → Nat) (rb : RB) (d : Nat) :
    Except Unit (List Nat × RB) :=
  if capacity < wAfter n rb d - rb.readCursor then Except.error ()
  else Except.ok (window prod rb.readCursor n,
    RB.mk (rb.readCursor + n) (wAfter n rb d))

/-- Observable events of the coordinator when run against the cursor
model of the ring buffer. `read` and `write` record the production index
of the first sample of the batch they handle; `clear` records the cursor
value the buffer is reset to. -/
inductive RbEvent
  | waitConnection
  | start
  | read (base : Nat) (batch : List Nat)
  | readErr
  | write (base : Nat) (bytes : List Nat)
  | writeErr (e : WriteError)
  | stop
  | clear (cursor : Nat)
deriving DecidableEq

/-- One connection epoch of `fut_main` run against the ring buffer
cursor model: the oracle supplies, per iteration, the number `d` of
samples produced while `read_exact` was pending and the host connection
state at write time. Returns the events, the buffer state at exit, and
whether the loop exited via `break`. -/
def runEpochRB (capacity maxPacket vrefint_sample n : Nat) (prod : Nat → Nat) :
    RB → List (Nat × Bool) → List RbEvent × RB × Bool
  | rb, [] => ([], rb, false)
  | rb, (d, hostUp) :: more =>
    match read_exact capacity n prod rb d with
    | Except.error _ =>
      ([RbEvent.readErr], RB.mk rb.readCursor (wAfter n rb d), true)
    | Except.ok (batch, rb') =>
      match write_packet_result maxPacket (mkPacket vrefint_sample batch) hostUp with
      | none =>
        (RbEvent.read rb.readCursor batch ::
          RbEvent.write rb.readCursor (mkPacket vrefint_sample batch) ::
            (runEpochRB capacity maxPacket vrefint_sample n prod rb' more).1,
         (runEpochRB capacity maxPacket vrefint_sample n prod rb' more).2)
      | some e =>
        ([RbEvent.read rb.readCursor batch,
          RbEvent.write rb.readCursor (mkPacket vrefint_sample batch),
          RbEvent.writeErr e], rb', true)

/-- The outer loop of `fut_main` against the ring buffer cursor model.
On a streaming failure the coordinator runs `stop()` (production halts)
then `clear()` (both cursors reset to an empty buffer at the current
write position), then waits for the next connection. -/
def runCoordRB (capacity maxPacket vrefint_sample n : Nat) (prod : Nat → Nat) :
    RB → List (List (Nat × Bool)) → List RbEvent
  | _, [] => []
  | rb, cur :: rest =>
    RbEvent.waitConnection :: RbEvent.start ::
      ((runEpochRB capacity maxPacket vrefint_sample n prod rb cur).1 ++
        (if (runEpochRB capacity maxPacket vrefint_sample n prod rb cur).2.2 then
          RbEvent.stop ::
            RbEvent.clear
              (runEpochRB capacity maxPacket vrefint_sample n prod rb cur).2.1.written ::
            runCoordRB capacity maxPacket vrefint_sample n prod
              (RB.mk
                (runEpochRB capacity maxPacket vrefint_sample n prod rb cur).2.1.written
                (runEpochRB capacity maxPacket vrefint_sample n prod rb cur).2.1.written)
              rest
        else []))

/-! ## Helper lemmas -/

theorem toBytesLE_length (xs : List Nat) : (toBytesLE xs).length = 2 * xs.length := by
  induction xs with
  | nil => rfl
  | cons x xs ih =>
    simp only [toBytesLE, List.length_cons, ih]
    omega

theorem mkPacket_length (v : Nat) (b : List Nat) :
    (mkPacket v b).length = 2 * b.length := by
  simp [mkPacket, toBytesLE_length]

theorem convert_lt (s v : Nat) : convert_to_millivolts s v < 65536 :=
  Nat.mod_lt _ (by decide)

theorem bytesToSamples_toBytesLE (xs : List Nat) (h : ∀ x ∈ xs, x < 65536) :
    bytesToSamples (toBytesLE xs) = xs := by
  induction xs with
  | nil => rfl
  | cons x xs ih =>
    have hx : x < 65536 := h x (List.mem_cons_self x xs)
    have hx2 : x / 256 < 256 := by omega
    simp only [toBytesLE, bytesToSamples]
    rw [ih (fun y hy => h y (List.mem_cons_of_mem x hy))]
    congr 1
    rw [Nat.mod_eq_of_lt hx2]
    omega

theorem bytesToSamples_mkPacket (v : Nat) (b : List Nat) :
    bytesToSamples (mkPacket v b) = b.map (fun s => convert_to_millivolts s v) := by
  apply bytesToSamples_toBytesLE
  intro x hx
  rcases List.mem_map.1 hx with ⟨s, _, rfl⟩
  exact convert_lt s v

/-! ## Claims about the calibration function -/

/-- Claim C8 (confirmed): with reference 2048 and known reference value
1200, the calibration function maps 2048 to 1200, 0 to 0 and 4095 to
2399 (the integer truncation of 4095 * 1200 / 2048). -/
theorem to_physical_scenario_midscale :
    convert_to_millivolts 2048 2048 = 1200 ∧
    convert_to_millivolts 0 2048 = 0 ∧
    convert_to_millivolts 4095 2048 = 2399 := by
  decide

/-- Claim C2 counterexample: at raw sample 4095 and reference 1 the
function does not return the exact truncated quotient 4095 * 1200 / 1 =
4914000; the narrowing u16 cast wraps it to 64336. -/
theorem to_physical_not_exact_quotient :
    convert_to_millivolts 4095 1 ≠ 4095 * 1200 / 1 := by
  decide

/-- Claim C2 (amended): for every raw sample r and reference v > 0 the
calibration function returns the truncated quotient r * 1200 / v reduced
modulo 2^16; it equals the exact quotient whenever that quotient fits in
16 bits. -/
theorem to_physical_eq_quotient_of_fit (r v : Nat) (hv : 0 < v)
    (hfit : r * 1200 / v < 65536) :
    convert_to_millivolts r v = r * 1200 / v := by
  unfold convert_to_millivolts VREF_INT
  exact Nat.mod_eq_of_lt hfit

theorem to_physical_eq_quotient_of_fit_witness :
    0 < 3 ∧ 100 * 1200 / 3 < 65536 ∧ convert_to_millivolts 100 3 = 100 * 1200 / 3 :=
  ⟨by decide, by decide, to_physical_eq_quotient_of_fit 100 3 (by decide) (by decide)⟩

/-- Claim C6 counterexample: with fixed reference 1, the raw samples 54
and 55 are ordered but their calibrated values are not: 54 maps to 64800
while 55 wraps to 464 under the u16 narrowing cast. -/
theorem to_physical_not_monotone :
    ¬ (54 ≤ 55 → convert_to_millivolts 54 1 ≤ convert_to_millivolts 55 1) := by
  decide

/-- Claim C6 (amended): for every fixed reference v > 0 the calibration
function is monotonic non-decreasing in the raw sample as long as the
truncated quotient of the larger sample fits in 16 bits (no wrap in the
narrowing cast). -/
theorem to_physical_monotone_of_fit (v r1 r2 : Nat) (hv : 0 < v)
    (h12 : r1 ≤ r2) (hfit : r2 * 1200 / v < 65536) :
    convert_to_millivolts r1 v ≤ convert_to_millivolts r2 v := by
  have hq : r1 * 1200 / v ≤ r2 * 1200 / v :=
    Nat.div_le_div_right (Nat.mul_le_mul_right _ h12)
  unfold convert_to_millivolts VREF_INT
  rw [Nat.mod_eq_of_lt hfit, Nat.mod_eq_of_lt (Nat.lt_of_le_of_lt hq hfit)]
  exact hq

theorem to_physical_monotone_of_fit_witness :
    0 < 2048 ∧ 5 ≤ 4095 ∧ 4095 * 1200 / 2048 < 65536 ∧
      convert_to_millivolts 5 2048 ≤ convert_to_millivolts 4095 2048 :=
  ⟨by decide, by decide, by decide,
    to_physical_monotone_of_fit 2048 5 4095 (by decide) (by decide) (by decide)⟩

/-- Claim C10 (confirmed): the narrowing of the calibration function to
the two-byte output width wraps modulo 2^16 rather than saturating: for
every raw u16 sample r and reference v > 0 the output is
(r * 1200 / v) mod 2^16, and equals the exact truncated quotient
whenever that quotient is at most 65535. -/
theorem to_physical_wraps_mod_u16 (r v : Nat) (hr : r < 65536) (hv : 0 < v) :
    convert_to_millivolts r v = (r * 1200 / v) % 65536 ∧
    (r * 1200 / v ≤ 65535 → convert_to_millivolts r v = r * 1200 / v) := by
  constructor
  · rfl
  · intro hfit
    unfold convert_to_millivolts VREF_INT
    exact Nat.mod_eq_of_lt (by omega)

theorem to_physical_wraps_mod_u16_witness :
    4095 < 65536 ∧ 0 < 2048 ∧
      (convert_to_millivolts 4095 2048 = (4095 * 1200 / 2048) % 65536 ∧
        (4095 * 1200 / 2048 ≤ 65535 →
          convert_to_millivolts 4095 2048 = 4095 * 1200 / 2048)) :=
  ⟨by decide, by decide, to_physical_wraps_mod_u16 4095 2048 (by decide) (by decide)⟩

/-! ## Epoch-level lemmas for the oracle model -/

theorem mem_writeCall_runEpoch (mp v : Nat) (cur : List InnerOutcome) (p : List Nat)
    (hp : Event.writeCall p ∈ (runEpoch mp v cur).1) :
    ∃ b h, InnerOutcome.read b h ∈ cur ∧ p = mkPacket v b := by
  induction cur with
  | nil => simp [runEpoch] at hp
  | cons o more ih =>
    cases o with
    | overrun => simp [runEpoch] at hp
    | read b hostUp =>
      cases hw : write_packet_result mp (mkPacket v b) hostUp with
      | none =>
        simp only [runEpoch, hw, List.mem_cons] at hp
        rcases hp with hp | hp | hp
        · exact absurd hp (by simp)
        · exact ⟨b, hostUp, by simp, by injection hp⟩
        · rcases ih hp with ⟨b', h', hmem, rfl⟩
          exact ⟨b', h', List.mem_cons_of_mem _ hmem, rfl⟩
      | some e =>
        simp only [runEpoch, hw, List.mem_cons, List.not_mem_nil] at hp
        rcases hp with hp | hp | hp | hp
        · exact absurd hp (by simp)
        · exact ⟨b, hostUp, by simp, by injection hp⟩
        · exact absurd hp (by simp)
        · exact absurd hp (by simp)

theorem mem_writeErr_runEpoch (mp v : Nat) (cur : List InnerOutcome) (e : WriteError)
    (hp : Event.writeErr e ∈ (runEpoch mp v cur).1) :
    ∃ b h, InnerOutcome.read b h ∈ cur ∧
      write_packet_result mp (mkPacket v b) h = some e := by
  induction cur with
  | nil => simp [runEpoch] at hp
  | cons o more ih =>
    cases o with
    | overrun => simp [runEpoch] at hp
    | read b hostUp =>
      cases hw : write_packet_result mp (mkPacket v b) hostUp with
      | none =>
        simp only [runEpoch, hw, List.mem_cons] at hp
        rcases hp with hp | hp | hp
        · exact absurd hp (by simp)
        · exact absurd hp (by simp)
        · rcases ih hp with ⟨b', h', hmem, hw'⟩
          exact ⟨b', h', List.mem_cons_of_mem _ hmem, hw'⟩
      | some e' =>
        simp only [runEpoch, hw, List.mem_cons, List.not_mem_nil] at hp
        rcases hp with hp | hp | hp | hp
        · exact absurd hp (by simp)
        · exact absurd hp (by simp)
        · injection hp with he
          exact ⟨b, hostUp, by simp, he ▸ hw⟩
        · exact absurd hp (by simp)

/-! ## Claims about packet assembly in the streaming loop -/

/-- Claim C1 (confirmed): under the `read_exact` interface contract
(every batch has exactly `spp` samples), every packet the coordinator
passes to `write_packet` during streaming has length exactly `spp * 2`
bytes and is assembled from exactly `spp` converted samples; no packet
is ever transmitted partially filled. -/
theorem packet_size_invariant (mp v spp : Nat) (oracle : List (List InnerOutcome))
    (hwf : wfOracle spp oracle = true) (p : List Nat)
    (hp : Event.writeCall p ∈ runCoordinator mp v oracle) :
    p.length = spp * 2 ∧ ∃ b, b.length = spp ∧ p = mkPacket v b := by
  induction oracle with
  | nil => simp [runCoordinator] at hp
  | cons cur rest ih =>
    simp only [wfOracle, List.all_cons, Bool.and_eq_true] at hwf
    cases hbr : (runEpoch mp v cur).2 with
    | false =>
      simp only [runCoordinator, hbr, Bool.false_eq_true, if_false,
        List.append_nil, List.mem_cons] at hp
      rcases hp with hp | hp | hp
      · exact absurd hp (by simp)
      · exact absurd hp (by simp)
      · rcases mem_writeCall_runEpoch mp v cur p hp with ⟨b, h, hmem, rfl⟩
        have hb : b.length = spp := by
          have := List.all_eq_true.1 hwf.1 _ hmem
          simpa [wfOutcome] using this
        exact ⟨by rw [mkPacket_length, hb]; omega, b, hb, rfl⟩
    | true =>
      simp only [runCoordinator, hbr, if_true, List.mem_cons,
        List.mem_append] at hp
      rcases hp with hp | hp | hp | hp | hp | hp
      · exact absurd hp (by simp)
      · exact absurd hp (by simp)
      · rcases mem_writeCall_runEpoch mp v cur p hp with ⟨b, h, hmem, rfl⟩
        have hb : b.length = spp := by
          have := List.all_eq_true.1 hwf.1 _ hmem
          simpa [wfOutcome] using this
        exact ⟨by rw [mkPacket_length, hb]; omega, b, hb, rfl⟩
      · exact absurd hp (by simp)
      · exact absurd hp (by simp)
      · exact ih (by simpa [wfOracle] using hwf.2) hp

theorem packet_size_invariant_witness :
    (mkPacket 2048 (List.replicate 32 5)).length = 32 * 2 ∧
      ∃ b, b.length = 32 ∧ mkPacket 2048 (List.replicate 32 5) = mkPacket 2048 b :=
  packet_size_invariant 64 2048 32 [[InnerOutcome.read (List.replicate 32 5) true]]
    (by decide) (mkPacket 2048 (List.replicate 32 5)) (by decide)

/-- Claim C7 (confirmed): when the assembled packets hold exactly `spp`
two-byte samples and `spp * 2` does not exceed the endpoint maximum
packet size, the `BufferOverflow` branch of `write_packet` is
unreachable in the streaming loop: no trace of the coordinator contains
a `BufferOverflow` write error. -/
theorem bufferOverflow_unreachable (mp v spp : Nat)
    (oracle : List (List InnerOutcome))
    (hwf : wfOracle spp oracle = true) (hsz : spp * 2 ≤ mp) :
    Event.writeErr WriteError.bufferOverflow ∉ runCoordinator mp v oracle := by
  intro hp
  induction oracle with
  | nil => simp [runCoordinator] at hp
  | cons cur rest ih =>
    simp only [wfOracle, List.all_cons, Bool.and_eq_true] at hwf
    have hepoch :
        Event.writeErr WriteError.bufferOverflow ∉ (runEpoch mp v cur).1 := by
      intro hmem
      rcases mem_writeErr_runEpoch mp v cur _ hmem with ⟨b, h, hbm, hw⟩
      have hb : b.length = spp := by
        have := List.all_eq_true.1 hwf.1 _ hbm
        simpa [wfOutcome] using this
      have hlen : ¬ mp < (mkPacket v b).length := by
        rw [mkPacket_length, hb]; omega
      rw [write_packet_result, if_neg hlen] at hw
      cases h with
      | true => simp at hw
      | false => simp at hw
    cases hbr : (runEpoch mp v cur).2 with
    | false =>
      simp only [runCoordinator, hbr, Bool.false_eq_true, if_false,
        List.append_nil, List.mem_cons] at hp
      rcases hp with hp | hp | hp
      · exact absurd hp (by simp)
      · exact absurd hp (by simp)
      · exact hepoch hp
    | true =>
      simp only [runCoordinator, hbr, if_true, List.mem_cons,
        List.mem_append] at hp
      rcases hp with hp | hp | hp | hp | hp | hp
      · exact absurd hp (by simp)
      · exact absurd hp (by simp)
      · exact hepoch hp
      · exact absurd hp (by simp)
      · exact absurd hp (by simp)
      · exact ih (by simpa [wfOracle] using hwf.2) hp

theorem bufferOverflow_unreachable_witness :
    Event.writeErr WriteError.bufferOverflow ∉
      runCoordinator 64 7 [[InnerOutcome.read [3, 4] false]] :=
  bufferOverflow_unreachable 64 7 2 [[InnerOutcome.read [3, 4] false]]
    (by decide) (by decide)

/-! ## Suffix decomposition helpers -/

theorem suffix_append_split {α : Type} {s a b : List α} (h : s <:+ a ++ b) :
    s <:+ b ∨ ∃ t, t <:+ a ∧ t ≠ [] ∧ s = t ++ b := by
  induction a with
  | nil => exact Or.inl (by simpa using h)
  | cons x a' ih =>
    rw [List.cons_append, List.suffix_cons_iff] at h
    rcases h with rfl | h
    · exact Or.inr ⟨x :: a', List.suffix_rfl, by simp, by simp⟩
    · rcases ih h with h | ⟨t, ht, hne, rfl⟩
      · exact Or.inl h
      · exact Or.inr ⟨t, ht.trans (List.suffix_cons x a'), hne, rfl⟩

theorem suffix_append_both {α : Type} {s a : List α} (t : List α) (h : s <:+ a) :
    s ++ t <:+ a ++ t := by
  rcases h with ⟨u, rfl⟩
  exact ⟨u, by simp⟩

/-! ## Suffix-level lemmas about one streaming epoch -/

theorem err_suffix_runEpoch (mp v : Nat) (cur : List InnerOutcome) (e : Event)
    (t : List Event) (he : isErrEvent e = true)
    (h : (e :: t) <:+ (runEpoch mp v cur).1) :
    t = [] ∧ (runEpoch mp v cur).2 = true := by
  induction cur with
  | nil => simp [runEpoch] at h
  | cons o more ih =>
    cases o with
    | overrun =>
      simp only [runEpoch] at h ⊢
      rw [List.suffix_cons_iff] at h
      rcases h with h | h
      · injection h with h1 h2
        exact ⟨h2, trivial⟩
      · rw [List.suffix_nil] at h
        simp at h
    | read b hostUp =>
      cases hw : write_packet_result mp (mkPacket v b) hostUp with
      | none =>
        simp only [runEpoch, hw] at h ⊢
        rw [List.suffix_cons_iff] at h
        rcases h with h | h
        · injection h with h1 h2
          rw [h1] at he
          simp [isErrEvent] at he
        rw [List.suffix_cons_iff] at h
        rcases h with h | h
        · injection h with h1 h2
          rw [h1] at he
          simp [isErrEvent] at he
        · exact ih h
      | some e' =>
        simp only [runEpoch, hw] at h ⊢
        rw [List.suffix_cons_iff] at h
        rcases h with h | h
        · injection h with h1 h2
          rw [h1] at he
          simp [isErrEvent] at he
        rw [List.suffix_cons_iff] at h
        rcases h with h | h
        · injection h with h1 h2
          rw [h1] at he
          simp [isErrEvent] at he
        rw [List.suffix_cons_iff] at h
        rcases h with h | h
        · injection h with h1 h2
          exact ⟨h2, trivial⟩
        · rw [List.suffix_nil] at h
          simp at h

theorem writeCall_suffix_runEpoch (mp v : Nat) (cur : List InnerOutcome)
    (p : List Nat) (t : List Event)
    (h : (Event.writeCall p :: t) <:+ (runEpoch mp v cur).1) :
    ∃ b, (Event.readBatch b :: Event.writeCall p :: t) <:+ (runEpoch mp v cur).1 ∧
      p = mkPacket v b := by
  induction cur with
  | nil => simp [runEpoch] at h
  | cons o more ih =>
    cases o with
    | overrun =>
      simp only [runEpoch] at h ⊢
      rw [List.suffix_cons_iff] at h
      rcases h with h | h
      · simp at h
      · rw [List.suffix_nil] at h
        simp at h
    | read b hostUp =>
      cases hw : write_packet_result mp (mkPacket v b) hostUp with
      | none =>
        simp only [runEpoch, hw] at h ⊢
        rw [List.suffix_cons_iff] at h
        rcases h with h | h
        · simp at h
        rw [List.suffix_cons_iff] at h
        rcases h with h | h
        · injection h with h1 h2
          injection h1 with h1
          subst h1
          subst h2
          exact ⟨b, List.suffix_rfl, rfl⟩
        · rcases ih h with ⟨b', hs, hp⟩
          exact ⟨b', hs.trans ((List.suffix_cons _ _).trans (List.suffix_cons _ _)), hp⟩
      | some e =>
        simp only [runEpoch, hw] at h ⊢
        rw [List.suffix_cons_iff] at h
        rcases h with h | h
        · simp at h
        rw [List.suffix_cons_iff] at h
        rcases h with h | h
        · injection h with h1 h2
          injection h1 with h1
          subst h1
          subst h2
          exact ⟨b, List.suffix_rfl, rfl⟩
        rw [List.suffix_cons_iff] at h
        rcases h with h | h
        · simp at h
        · rw [List.suffix_nil] at h
          simp at h

/-! ## Temporal claims about the coordinator loop -/

/-- Claim C3 (confirmed): after a streaming failure (an `OverrunError`
from `read_exact` or a transport write failure), the coordinator always
executes `stop` and then `clear` as the next two steps, before anything
else and in particular before it calls `wait_connection` again: every
occurrence of an error event in a coordinator trace is immediately
followed by `stop` then `clear`, so no path re-enters streaming without
passing through the drain. -/
theorem drain_after_failure (mp v : Nat) (oracle : List (List InnerOutcome))
    (e : Event) (rest : List Event) (he : isErrEvent e = true)
    (h : (e :: rest) <:+ runCoordinator mp v oracle) :
    ∃ rest', rest = Event.stop :: Event.clear :: rest' := by
  induction oracle generalizing rest with
  | nil => simp [runCoordinator] at h
  | cons cur rst ih =>
    simp only [runCoordinator] at h
    rw [List.suffix_cons_iff] at h
    rcases h with h | h
    · injection h with h1 h2
      rw [h1] at he
      simp [isErrEvent] at he
    rw [List.suffix_cons_iff] at h
    rcases h with h | h
    · injection h with h1 h2
      rw [h1] at he
      simp [isErrEvent] at he
    rcases suffix_append_split h with h | ⟨t, ht, hne, heq⟩
    · cases hbr : (runEpoch mp v cur).2 with
      | false =>
        simp only [hbr, Bool.false_eq_true, if_false, List.suffix_nil] at h
        simp at h
      | true =>
        simp only [hbr, if_true] at h
        rw [List.suffix_cons_iff] at h
        rcases h with h | h
        · injection h with h1 h2
          rw [h1] at he
          simp [isErrEvent] at he
        rw [List.suffix_cons_iff] at h
        rcases h with h | h
        · injection h with h1 h2
          rw [h1] at he
          simp [isErrEvent] at he
        · exact ih rest h
    · cases t with
      | nil => exact absurd rfl hne
      | cons x t' =>
        rw [List.cons_append] at heq
        injection heq with h1 h2
        rw [← h1] at ht
        rcases err_suffix_runEpoch mp v cur e t' he ht with ⟨ht', hbr⟩
        subst ht'
        simp only [hbr, if_true, List.nil_append] at h2
        exact ⟨runCoordinator mp v rst, h2⟩

theorem drain_after_failure_witness :
    isErrEvent Event.readErr = true ∧
      ∃ rest', ([Event.stop, Event.clear] : List Event) =
        Event.stop :: Event.clear :: rest' :=
  ⟨rfl, drain_after_failure 64 1489 [[InnerOutcome.overrun]] Event.readErr
    [Event.stop, Event.clear] rfl ⟨[Event.waitConnection, Event.start], rfl⟩⟩

/-- Claim C9 (confirmed): every `write_packet` call in a coordinator
trace is immediately preceded by the `read_exact` batch it was assembled
from, in a single call covering the whole batch; decoding the packet
bytes back to 16-bit samples yields, at every index `i`, exactly the
calibrated value of the i-th raw sample of that batch, so sample order
is preserved. -/
theorem packet_preserves_order (mp v : Nat) (oracle : List (List InnerOutcome))
    (p : List Nat) (rest : List Event)
    (h : (Event.writeCall p :: rest) <:+ runCoordinator mp v oracle) :
    ∃ b, (Event.readBatch b :: Event.writeCall p :: rest) <:+
        runCoordinator mp v oracle ∧
      p = mkPacket v b ∧
      ∀ j : Nat, (bytesToSamples p)[j]? =
        b[j]?.map (fun s => convert_to_millivolts s v) := by
  induction oracle generalizing rest with
  | nil => simp [runCoordinator] at h
  | cons cur rst ih =>
    simp only [runCoordinator] at h ⊢
    rw [List.suffix_cons_iff] at h
    rcases h with h | h
    · simp at h
    rw [List.suffix_cons_iff] at h
    rcases h with h | h
    · simp at h
    rcases suffix_append_split h with h | ⟨t, ht, hne, heq⟩
    · cases hbr : (runEpoch mp v cur).2 with
      | false =>
        simp only [hbr, Bool.false_eq_true, if_false, List.suffix_nil] at h
        simp at h
      | true =>
        simp only [hbr, if_true] at h ⊢
        rw [List.suffix_cons_iff] at h
        rcases h with h | h
        · simp at h
        rw [List.suffix_cons_iff] at h
        rcases h with h | h
        · simp at h
        rcases ih rest h with ⟨b, hs, hpb, hj⟩
        refine ⟨b, ?_, hpb, hj⟩
        exact hs.trans ((List.suffix_cons _ _).trans
          ((List.suffix_cons _ _).trans ((List.suffix_append _ _).trans
            ((List.suffix_cons _ _).trans (List.suffix_cons _ _)))))
    · cases t with
      | nil => exact absurd rfl hne
      | cons x t' =>
        rw [List.cons_append] at heq
        injection heq with h1 h2
        rw [← h1] at ht
        rcases writeCall_suffix_runEpoch mp v cur p t' ht with ⟨b, hs, hpb⟩
        refine ⟨b, ?_, hpb, ?_⟩
        · have hlift := suffix_append_both
            (if (runEpoch mp v cur).2 then
              Event.stop :: Event.clear :: runCoordinator mp v rst
            else []) hs
          rw [List.cons_append, List.cons_append] at hlift
          rw [← h2] at hlift
          exact hlift.trans ((List.suffix_cons _ _).trans (List.suffix_cons _ _))
        · intro j
          rw [hpb, bytesToSamples_mkPacket]
          exact List.getElem?_map _ _ _

theorem packet_preserves_order_witness :
    ∃ b, (Event.readBatch b :: Event.writeCall [4, 0] :: []) <:+
        runCoordinator 64 2048 [[InnerOutcome.read [7] true]] ∧
      ([4, 0] : List Nat) = mkPacket 2048 b ∧
      ∀ j : Nat, (bytesToSamples ([4, 0] : List Nat))[j]? =
        b[j]?.map (fun s => convert_to_millivolts s 2048) :=
  packet_preserves_order 64 2048 [[InnerOutcome.read [7] true]] [4, 0] []
    ⟨[Event.waitConnection, Event.start, Event.readBatch [7]], rfl⟩

/-! ## Claims about the ring buffer interface -/

/-- Claim C5 (confirmed against the spec model of the external ring
buffer): for every `n`, `read_exact n` either returns exactly `n`
samples, namely the window of the production stream starting at the
read cursor in production order, advancing the read cursor by `n`, or
fails with `OverrunError` exactly when the hardware write cursor has run
more than the buffer capacity past unread data; it never succeeds with
fewer than `n` samples. -/
theorem read_exact_spec (capacity n : Nat) (prod : Nat → Nat) (rb : RB) (d : Nat) :
    (read_exact capacity n prod rb d =
        Except.ok (window prod rb.readCursor n,
          RB.mk (rb.readCursor + n) (wAfter n rb d)) ∧
      (window prod rb.readCursor n).length = n ∧
      wAfter n rb d - rb.readCursor ≤ capacity) ∨
    (read_exact capacity n prod rb d = Except.error () ∧
      capacity < wAfter n rb d - rb.readCursor) := by
  by_cases hc : capacity < wAfter n rb d - rb.readCursor
  · exact Or.inr ⟨by simp [read_exact, hc], hc⟩
  · refine Or.inl ⟨by simp [read_exact, hc], ?_, by omega⟩
    simp [window]

/-! ## Lemmas about the coordinator over the ring buffer model -/

theorem write_mem_runEpochRB (cap mp v n : Nat) (prod : Nat → Nat)
    (cur : List (Nat × Bool)) (rb : RB) (base : Nat) (bytes : List Nat)
    (hm : RbEvent.write base bytes ∈ (runEpochRB cap mp v n prod rb cur).1) :
    rb.readCursor ≤ base ∧ bytes = mkPacket v (window prod base n) := by
  induction cur generalizing rb with
  | nil => simp [runEpochRB] at hm
  | cons o more ih =>
    rcases o with ⟨d, hostUp⟩
    by_cases hc : cap < wAfter n rb d - rb.readCursor
    · have hre : read_exact cap n prod rb d = Except.error () := by
        simp [read_exact, hc]
      simp only [runEpochRB, hre] at hm
      simp at hm
    · have hre : read_exact cap n prod rb d =
          Except.ok (window prod rb.readCursor n,
            RB.mk (rb.readCursor + n) (wAfter n rb d)) := by
        simp [read_exact, hc]
      cases hw : write_packet_result mp
          (mkPacket v (window prod rb.readCursor n)) hostUp with
      | none =>
        simp only [runEpochRB, hre, hw, List.mem_cons] at hm
        rcases hm with hm | hm | hm
        · simp at hm
        · injection hm with h1 h2
          subst h1
          exact ⟨le_refl _, h2⟩
        · have hrec := ih (RB.mk (rb.readCursor + n) (wAfter n rb d)) hm
          have h1 : rb.readCursor + n ≤ base := hrec.1
          exact ⟨le_trans (Nat.le_add_right _ _) h1, hrec.2⟩
      | some e =>
        simp only [runEpochRB, hre, hw, List.mem_cons, List.not_mem_nil] at hm
        rcases hm with hm | hm | hm | hm
        · simp at hm
        · injection hm with h1 h2
          subst h1
          exact ⟨le_refl _, h2⟩
        · simp at hm
        · simp at hm

theorem cursor_runEpochRB (cap mp v n : Nat) (prod : Nat → Nat)
    (cur : List (Nat × Bool)) (rb : RB) (hrb : rb.readCursor ≤ rb.written) :
    rb.readCursor ≤ (runEpochRB cap mp v n prod rb cur).2.1.readCursor ∧
      (runEpochRB cap mp v n prod rb cur).2.1.readCursor ≤
        (runEpochRB cap mp v n prod rb cur).2.1.written := by
  induction cur generalizing rb with
  | nil => exact ⟨le_refl _, hrb⟩
  | cons o more ih =>
    rcases o with ⟨d, hostUp⟩
    by_cases hc : cap < wAfter n rb d - rb.readCursor
    · have hre : read_exact cap n prod rb d = Except.error () := by
        simp [read_exact, hc]
      simp only [runEpochRB, hre]
      refine ⟨le_refl _, ?_⟩
      show rb.readCursor ≤ wAfter n rb d
      exact le_trans (Nat.le_add_right _ n) (Nat.le_max_right _ _)
    · have hre : read_exact cap n prod rb d =
          Except.ok (window prod rb.readCursor n,
            RB.mk (rb.readCursor + n) (wAfter n rb d)) := by
        simp [read_exact, hc]
      have hstep : rb.readCursor + n ≤ wAfter n rb d := Nat.le_max_right _ _
      cases hw : write_packet_result mp
          (mkPacket v (window prod rb.readCursor n)) hostUp with
      | none =>
        simp only [runEpochRB, hre, hw]
        have hrec := ih (RB.mk (rb.readCursor + n) (wAfter n rb d)) hstep
        have h1 : rb.readCursor + n ≤
            (runEpochRB cap mp v n prod
              (RB.mk (rb.readCursor + n) (wAfter n rb d)) more).2.1.readCursor := hrec.1
        exact ⟨le_trans (Nat.le_add_right _ _) h1, hrec.2⟩
      | some e =>
        simp only [runEpochRB, hre, hw]
        exact ⟨Nat.le_add_right _ _, hstep⟩

theorem no_clear_runEpochRB (cap mp v n : Nat) (prod : Nat → Nat)
    (cur : List (Nat × Bool)) (rb : RB) (c : Nat) :
    RbEvent.clear c ∉ (runEpochRB cap mp v n prod rb cur).1 := by
  induction cur generalizing rb with
  | nil => simp [runEpochRB]
  | cons o more ih =>
    rcases o with ⟨d, hostUp⟩
    by_cases hc : cap < wAfter n rb d - rb.readCursor
    · have hre : read_exact cap n prod rb d = Except.error () := by
        simp [read_exact, hc]
      simp [runEpochRB, hre]
    · have hre : read_exact cap n prod rb d =
          Except.ok (window prod rb.readCursor n,
            RB.mk (rb.readCursor + n) (wAfter n rb d)) := by
        simp [read_exact, hc]
      cases hw : write_packet_result mp
          (mkPacket v (window prod rb.readCursor n)) hostUp with
      | none => simp [runEpochRB, hre, hw, ih]
      | some e => simp [runEpochRB, hre, hw]

theorem write_mem_runCoordRB (cap mp v n : Nat) (prod : Nat → Nat)
    (oracle : List (List (Nat × Bool))) (rb : RB)
    (hrb : rb.readCursor ≤ rb.written) (base : Nat) (bytes : List Nat)
    (hm : RbEvent.write base bytes ∈ runCoordRB cap mp v n prod rb oracle) :
    rb.readCursor ≤ base ∧ bytes = mkPacket v (window prod base n) := by
  induction oracle generalizing rb with
  | nil => simp [runCoordRB] at hm
  | cons cur rst ih =>
    cases hbr : (runEpochRB cap mp v n prod rb cur).2.2 with
    | false =>
      simp only [runCoordRB, hbr, Bool.false_eq_true, if_false,
        List.append_nil, List.mem_cons] at hm
      rcases hm with hm | hm | hm
      · simp at hm
      · simp at hm
      · exact write_mem_runEpochRB cap mp v n prod cur rb base bytes hm
    | true =>
      simp only [runCoordRB, hbr, if_true, List.mem_cons, List.mem_append] at hm
      rcases hm with hm | hm | hm | hm | hm | hm
      · simp at hm
      · simp at hm
      · exact write_mem_runEpochRB cap mp v n prod cur rb base bytes hm
      · simp at hm
      · simp at hm
      · have hrec := ih (RB.mk (runEpochRB cap mp v n prod rb cur).2.1.written
          (runEpochRB cap mp v n prod rb cur).2.1.written) (le_refl _) hm
        have hcur := cursor_runEpochRB cap mp v n prod cur rb hrb
        have h1 : (runEpochRB cap mp v n prod rb cur).2.1.written ≤ base := hrec.1
        exact ⟨le_trans (le_trans hcur.1 hcur.2) h1, hrec.2⟩

theorem clear_suffix_runCoordRB (cap mp v n : Nat) (prod : Nat → Nat)
    (oracle : List (List (Nat × Bool))) (rb : RB)
    (hrb : rb.readCursor ≤ rb.written) (c : Nat) (rest : List RbEvent)
    (h : (RbEvent.clear c :: rest) <:+ runCoordRB cap mp v n prod rb oracle) :
    ∀ base bytes, RbEvent.write base bytes ∈ rest →
      c ≤ base ∧ bytes = mkPacket v (window prod base n) := by
  induction oracle generalizing rb rest with
  | nil => simp [runCoordRB] at h
  | cons cur rst ih =>
    simp only [runCoordRB] at h
    rw [List.suffix_cons_iff] at h
    rcases h with h | h
    · simp at h
    rw [List.suffix_cons_iff] at h
    rcases h with h | h
    · simp at h
    rcases suffix_append_split h with h | ⟨t, ht, hne, heq⟩
    · cases hbr : (runEpochRB cap mp v n prod rb cur).2.2 with
      | false =>
        simp only [hbr, Bool.false_eq_true, if_false, List.suffix_nil] at h
        simp at h
      | true =>
        simp only [hbr, if_true] at h
        rw [List.suffix_cons_iff] at h
        rcases h with h | h
        · simp at h
        rw [List.suffix_cons_iff] at h
        rcases h with h | h
        · injection h with h1 h2
          injection h1 with h1
          intro base bytes hm
          rw [h2] at hm
          have hrec := write_mem_runCoordRB cap mp v n prod rst
            (RB.mk (runEpochRB cap mp v n prod rb cur).2.1.written
              (runEpochRB cap mp v n prod rb cur).2.1.written)
            (le_refl _) base bytes hm
          have h1' : (runEpochRB cap mp v n prod rb cur).2.1.written ≤ base := hrec.1
          rw [h1]
          exact ⟨h1', hrec.2⟩
        · exact ih (RB.mk (runEpochRB cap mp v n prod rb cur).2.1.written
            (runEpochRB cap mp v n prod rb cur).2.1.written) (le_refl _) rest h
    · cases t with
      | nil => exact absurd rfl hne
      | cons x t' =>
        rw [List.cons_append] at heq
        injection heq with h1 h2
        have hx : RbEvent.clear c ∈ (runEpochRB cap mp v n prod rb cur).1 := by
          rw [h1]
          exact ht.subset (List.mem_cons_self x t')
        exact absurd hx (no_clear_runEpochRB cap mp v n prod cur rb c)

/-- Claim C4 (confirmed against the spec model of the external ring
buffer): across a disconnect or overrun and reconnect cycle, no sample
produced before the drain of the previous connection epoch is ever
transmitted after reconnection. After a `clear` that resets the buffer
cursors to production index `c`, every packet handed to `write_packet`
(in particular the first one after `wait_connection` returns) is
assembled exactly from the `n` samples at production indices at or above
`c`, i.e. samples deposited in the buffer after the `clear` and the
subsequent `start`. -/
theorem no_stale_samples_after_clear (cap mp v n : Nat) (prod : Nat → Nat)
    (oracle : List (List (Nat × Bool))) (c : Nat) (rest : List RbEvent)
    (h : (RbEvent.clear c :: rest) <:+ runCoordRB cap mp v n prod (RB.mk 0 0) oracle) :
    ∀ base bytes, RbEvent.write base bytes ∈ rest →
      c ≤ base ∧ bytes = mkPacket v (window prod base n) :=
  clear_suffix_runCoordRB cap mp v n prod oracle (RB.mk 0 0) (le_refl 0) c rest h

theorem no_stale_samples_after_clear_witness :
    5 ≤ 5 ∧ ([2, 0] : List Nat) = mkPacket 2048 (window (fun i => i) 5 1) :=
  no_stale_samples_after_clear 2 64 2048 1 (fun i => i)
    [[(5, true)], [(1, true)]] 5
    [RbEvent.waitConnection, RbEvent.start, RbEvent.read 5 [5],
      RbEvent.write 5 [2, 0]]
    ⟨[RbEvent.waitConnection, RbEvent.start, RbEvent.readErr, RbEvent.stop], rfl⟩
    5 [2, 0] (by decide)

end Calipertron
